import Mathlib

/-!
Verification of the chunking loop of `src/split-lines.py`.

The Python function is:

```
def split_chinked_lines(file, chunk_size=(2000 - 11)) -> None:
    with open(file) as f:
        chunks = []
        prepend = ""
        while True:
            chunk = prepend + f.read(chunk_size - len(prepend))
            if not chunk:
                break
            pyperclip.copy(f"```ansi {chunk}```")
            print("copied chunk to clipboard")
            time.sleep(3)
            prepend = chunk[chunk.rfind('\n') + 1:]
```

We model the file contents as a `List Char`; the open file handle is the
still-unread tail of that list.  One loop iteration is `step`; `run` iterates
it with explicit fuel, returning the emitted undecorated chunks together with
a flag that is `true` exactly when the loop reached its `break`.  `events`
records the observable side effects of the same loop (clipboard copies and
sleeps) as a trace.  The dead local `chunks = []` of the source is never read
and is not modelled.  Python's `chunk[chunk.rfind('\n') + 1:]` (the suffix
after the last newline, or the whole string when `rfind` returns -1) is
`afterLastNewline`.  `chunk_size` is modelled as `Nat`: the source's default
is the nonnegative `2000 - 11`, and `chunk_size - len(prepend)` never goes
negative in a run started from an empty `prepend`, so `Nat` subtraction agrees
with Python's at every reachable state.
-/

/-- Loop state: `rest` is the unread tail of the file, `prepend` is the
carry variable `prepend` of the source. -/
structure St where
  rest : List Char
  prepend : List Char
deriving DecidableEq

/-- `chunk[chunk.rfind('\n') + 1:]`: the suffix of `chunk` strictly after its
last newline, or all of `chunk` when it has no newline (`rfind` = -1). -/
def afterLastNewline : List Char → List Char
  | [] => []
  | c :: rest =>
    if '\n' ∈ rest then afterLastNewline rest
    else if c = '\n' then rest
    else c :: rest

/-- One iteration of the `while True` loop: read up to
`chunk_size - len(prepend)` characters, form `chunk = prepend + read`,
`break` (`none`) when `chunk` is empty, otherwise emit `chunk` and update
`prepend` to the part of `chunk` after its last newline. -/
def step (chunkSize : Nat) (s : St) : Option (List Char × St) :=
  let readAmt := chunkSize - s.prepend.length
  let chunk := s.prepend ++ s.rest.take readAmt
  if chunk = [] then none
  else some (chunk, ⟨s.rest.drop readAmt, afterLastNewline chunk⟩)

/-- Iterate `step` with fuel.  Returns the undecorated chunks handed to the
sink, in order, and `true` iff the loop reached `break` within the fuel. -/
def run (chunkSize : Nat) : Nat → St → List (List Char) × Bool
  | 0, _ => ([], false)
  | fuel + 1, s =>
    match step chunkSize s with
    | none => ([], true)
    | some (c, s') =>
      let r := run chunkSize fuel s'
      (c :: r.1, r.2)

/-- The state at the top of the loop: nothing read yet, `prepend = ""`. -/
def initSt (file : List Char) : St := ⟨file, []⟩

/-- The decoration applied before the clipboard copy:
`f"```ansi {chunk}```"`. -/
def decorate (chunk : List Char) : List Char :=
  "```ansi ".data ++ chunk ++ "```".data

/-- The source's default `chunk_size = (2000 - 11)`. -/
def defaultChunkSize : Nat := 2000 - 11

/-- The decorated strings handed to `pyperclip.copy`, in order. -/
def sinkOutputs (chunkSize fuel : Nat) (file : List Char) : List (List Char) :=
  ((run chunkSize fuel (initSt file)).1).map decorate

/-- Observable side effects of one run: clipboard copies and sleeps. -/
inductive Event where
  | copy : List Char → Event
  | sleep : Nat → Event
deriving DecidableEq

/-- The event trace of the loop: each iteration copies the decorated chunk to
the clipboard and then sleeps 3 seconds (`time.sleep(3)`). -/
def events (chunkSize : Nat) : Nat → St → List Event
  | 0, _ => []
  | fuel + 1, s =>
    match step chunkSize s with
    | none => []
    | some (c, s') =>
      Event.copy (decorate c) :: Event.sleep 3 :: events chunkSize fuel s'

/-- The whole program on a given file: the event trace from the initial
state.  Keeps the source's function name. -/
def split_chinked_lines (file : List Char) (chunk_size fuel : Nat) :
    List Event :=
  events chunk_size fuel (initSt file)

/-- Remove from every chunk after the first its leading carry-over: the carry
entering a chunk is `afterLastNewline` of the previous chunk.  The `carry`
argument is the carry entering the first listed chunk. -/
def dropCarries (carry : List Char) : List (List Char) → List Char
  | [] => []
  | c :: cs => c.drop carry.length ++ dropCarries (afterLastNewline c) cs

/-- The spec's reconstruction: concatenate all emitted undecorated chunks,
each chunk's leading carry-over prefixed removed, except the first chunk
(whose incoming carry is empty). -/
def reconstruct (chunks : List (List Char)) : List Char :=
  dropCarries [] chunks

/-- The characters the loop still has to account for: the carry plus the
unread tail of the file. -/
def pending (s : St) : List Char := s.prepend ++ s.rest

/-! ### Lemmas about `afterLastNewline` -/

theorem newline_not_mem_afterLastNewline :
    ∀ l : List Char, '\n' ∉ afterLastNewline l
  | [] => by simp [afterLastNewline]
  | c :: rest => by
    unfold afterLastNewline
    by_cases h : '\n' ∈ rest
    · simpa [h] using newline_not_mem_afterLastNewline rest
    · by_cases hc : c = '\n'
      · simp [h, hc]
      · simp only [h, hc, if_false]
        intro hmem
        rcases List.mem_cons.mp hmem with h1 | h2
        · exact hc h1.symm
        · exact h h2

theorem afterLastNewline_of_not_mem :
    ∀ l : List Char, '\n' ∉ l → afterLastNewline l = l
  | [], _ => rfl
  | c :: rest, h => by
    have hr : '\n' ∉ rest := fun hm => h (List.mem_cons_of_mem _ hm)
    have hc : ¬c = '\n' := fun hc => h (hc ▸ List.mem_cons_self _ _)
    simp [afterLastNewline, hr, hc]

theorem exists_append_newline :
    ∀ l : List Char, '\n' ∈ l → ∃ u, l = u ++ '\n' :: afterLastNewline l
  | c :: rest, h => by
    by_cases hr : '\n' ∈ rest
    · obtain ⟨u, hu⟩ := exists_append_newline rest hr
      refine ⟨c :: u, ?_⟩
      simp only [afterLastNewline, hr, if_true, List.cons_append]
      exact congrArg (c :: ·) hu
    · have hc : c = '\n' := by
        rcases List.mem_cons.mp h with h1 | h2
        · exact h1.symm
        · exact absurd h2 hr
      exact ⟨[], by simp [afterLastNewline, hr, hc]⟩

theorem length_afterLastNewline_le :
    ∀ l : List Char, (afterLastNewline l).length ≤ l.length
  | [] => Nat.le_refl _
  | c :: rest => by
    unfold afterLastNewline
    by_cases h : '\n' ∈ rest
    · simpa [h] using
        Nat.le_trans (length_afterLastNewline_le rest) (Nat.le_succ _)
    · by_cases hc : c = '\n' <;> simp [h, hc]

theorem getLast?_afterLastNewline :
    ∀ l : List Char, l.getLast? ≠ some '\n' →
      (afterLastNewline l).getLast? = l.getLast?
  | [], _ => rfl
  | [c], h => by
    have hc : ¬c = '\n' := by simpa using h
    simp [afterLastNewline, hc]
  | c :: b :: t, h => by
    have htail : (b :: t).getLast? ≠ some '\n' := by
      simpa [List.getLast?_cons_cons] using h
    unfold afterLastNewline
    by_cases hm : '\n' ∈ b :: t
    · simp only [hm, if_true]
      rw [getLast?_afterLastNewline (b :: t) htail, List.getLast?_cons_cons]
    · by_cases hc : c = '\n' <;> simp [hm, hc, List.getLast?_cons_cons]

/-! ### Lemmas about `step` and `run` -/

theorem step_elim {chunkSize : Nat} {s : St} {c : List Char} {s' : St}
    (h : step chunkSize s = some (c, s')) :
    c = s.prepend ++ s.rest.take (chunkSize - s.prepend.length) ∧ c ≠ [] ∧
    s' = ⟨s.rest.drop (chunkSize - s.prepend.length), afterLastNewline c⟩ := by
  simp only [step] at h
  split at h
  · exact absurd h (by simp)
  · rename_i hne
    rw [Option.some.injEq, Prod.mk.injEq] at h
    obtain ⟨h1, h2⟩ := h
    refine ⟨h1.symm, h1 ▸ hne, ?_⟩
    rw [← h2, ← h1]

theorem step_some_of_pending {chunkSize : Nat} (hcs : 0 < chunkSize) (s : St)
    (hne : pending s ≠ []) :
    ∃ c s', step chunkSize s = some (c, s') := by
  have hchunk : s.prepend ++ s.rest.take (chunkSize - s.prepend.length) ≠ [] := by
    intro hc
    obtain ⟨hp, ht⟩ := List.append_eq_nil.mp hc
    rcases List.take_eq_nil_iff.mp ht with h0 | h0
    · rw [hp] at h0
      simp at h0
      omega
    · exact hne (by simp [pending, hp, h0])
  refine ⟨s.prepend ++ s.rest.take (chunkSize - s.prepend.length),
    ⟨s.rest.drop (chunkSize - s.prepend.length),
     afterLastNewline (s.prepend ++ s.rest.take (chunkSize - s.prepend.length))⟩,
    ?_⟩
  simp [step, hchunk]

theorem step_pending_inv {chunkSize : Nat} {s : St} {c : List Char} {s' : St}
    (h : step chunkSize s = some (c, s'))
    (_hne : pending s ≠ []) (hlast : (pending s).getLast? ≠ some '\n') :
    pending s' ≠ [] ∧ (pending s').getLast? ≠ some '\n' := by
  obtain ⟨hc, hcne, hs'⟩ := step_elim h
  have hsplit : c ++ s.rest.drop (chunkSize - s.prepend.length) = pending s := by
    rw [hc, pending, List.append_assoc, List.take_append_drop]
  have hpend : pending s' =
      afterLastNewline c ++ s.rest.drop (chunkSize - s.prepend.length) := by
    rw [hs', pending]
  by_cases hd : s.rest.drop (chunkSize - s.prepend.length) = []
  · have hcp : c = pending s := by rw [← hsplit, hd, List.append_nil]
    have hclast : c.getLast? ≠ some '\n' := hcp ▸ hlast
    have hAlast : (afterLastNewline c).getLast? = c.getLast? :=
      getLast?_afterLastNewline c hclast
    have hAne : afterLastNewline c ≠ [] := by
      intro hA
      rw [hA, List.getLast?_nil] at hAlast
      exact hcne (List.getLast?_eq_none_iff.mp hAlast.symm)
    constructor
    · rw [hpend, hd, List.append_nil]
      exact hAne
    · rw [hpend, hd, List.append_nil, hAlast, hcp]
      exact hlast
  · constructor
    · rw [hpend]
      intro hx
      exact hd (List.append_eq_nil.mp hx).2
    · rw [hpend, List.getLast?_append_of_ne_nil _ hd]
      rw [← hsplit, List.getLast?_append_of_ne_nil _ hd] at hlast
      exact hlast

theorem run_no_break {chunkSize : Nat} (hcs : 0 < chunkSize) :
    ∀ (fuel : Nat) (s : St), pending s ≠ [] →
      (pending s).getLast? ≠ some '\n' →
      (run chunkSize fuel s).2 = false
  | 0, _, _, _ => rfl
  | fuel + 1, s, hne, hlast => by
    obtain ⟨c, s', hstep⟩ := step_some_of_pending hcs s hne
    obtain ⟨hne', hlast'⟩ := step_pending_inv hstep hne hlast
    simp only [run, hstep]
    exact run_no_break hcs fuel s' hne' hlast'

theorem run_no_break_of_fixed {chunkSize : Nat} {s : St} {c : List Char}
    (h : step chunkSize s = some (c, s)) :
    ∀ fuel, (run chunkSize fuel s).2 = false
  | 0 => rfl
  | fuel + 1 => by
    simp only [run, h]
    exact run_no_break_of_fixed h fuel

theorem run_chunk_length {chunkSize : Nat} :
    ∀ (fuel : Nat) (s : St), s.prepend.length ≤ chunkSize →
      ∀ c ∈ (run chunkSize fuel s).1, c.length ≤ chunkSize
  | 0, _, _, c, hc => absurd hc (by simp [run])
  | fuel + 1, s, hp, c, hc => by
    cases hstep : step chunkSize s with
    | none => simp [run, hstep] at hc
    | some pair =>
      obtain ⟨c₀, s'⟩ := pair
      obtain ⟨hc₀, _, hs'⟩ := step_elim hstep
      have hlen : c₀.length ≤ chunkSize := by
        rw [hc₀, List.length_append]
        have htake :
            (s.rest.take (chunkSize - s.prepend.length)).length ≤
              chunkSize - s.prepend.length := by
          rw [List.length_take]
          exact Nat.min_le_left _ _
        omega
      have hp' : s'.prepend.length ≤ chunkSize := by
        rw [hs']
        exact le_trans (length_afterLastNewline_le c₀) hlen
      simp only [run, hstep] at hc
      rcases List.mem_cons.mp hc with h1 | h2
      · exact h1 ▸ hlen
      · exact run_chunk_length fuel s' hp' c h2

theorem run_reconstruct {chunkSize : Nat} (hcs : 0 < chunkSize) :
    ∀ (fuel : Nat) (s : St), (run chunkSize fuel s).2 = true →
      dropCarries s.prepend (run chunkSize fuel s).1 = s.rest
  | 0, s, h => by simp [run] at h
  | fuel + 1, s, h => by
    cases hstep : step chunkSize s with
    | none =>
      have hchunk : s.prepend ++ s.rest.take (chunkSize - s.prepend.length) = [] := by
        by_contra hne
        simp [step, hne] at hstep
      obtain ⟨hp, ht⟩ := List.append_eq_nil.mp hchunk
      have hrest : s.rest = [] := by
        rcases List.take_eq_nil_iff.mp ht with h0 | h0
        · rw [hp] at h0
          simp at h0
          omega
        · exact h0
      simp [run, hstep, dropCarries, hrest]
    | some pair =>
      obtain ⟨c₀, s'⟩ := pair
      obtain ⟨hc₀, _, hs'⟩ := step_elim hstep
      simp only [run, hstep] at h ⊢
      have ih := run_reconstruct hcs fuel s' h
      rw [hs'] at ih
      rw [dropCarries]
      have hdrop :
          c₀.drop s.prepend.length = s.rest.take (chunkSize - s.prepend.length) := by
        rw [hc₀]
        exact List.drop_left _ _
      rw [hdrop]
      rw [hs']
      rw [ih]
      exact List.take_append_drop _ _

theorem events_sleep_after_copy {chunkSize : Nat} :
    ∀ (fuel : Nat) (s : St) (i : Nat) (d : List Char),
      (events chunkSize fuel s)[i]? = some (Event.copy d) →
      (events chunkSize fuel s)[i + 1]? = some (Event.sleep 3)
  | 0, s, i, d, h => by simp [events] at h
  | fuel + 1, s, i, d, h => by
    cases hstep : step chunkSize s with
    | none => simp [events, hstep] at h
    | some pair =>
      obtain ⟨c₀, s'⟩ := pair
      simp only [events, hstep] at h ⊢
      match i with
      | 0 => simp
      | 1 => simp at h
      | n + 2 =>
        simp only [List.getElem?_cons_succ] at h ⊢
        exact events_sleep_after_copy fuel s' n d h

/-! ### Claims -/

/-- Claim C1, counterexample: with `chunk_size = 2` and file `"abcd"` (one
line longer than the chunk size) the loop stalls re-emitting `"ab"`; after 10
iterations the loop has not terminated, the reconstruction is `"ab"`, not
`"abcd"`, and the reached state is a fixed point of `step`, so no further
iteration changes this. -/
theorem reconstruct_stall_counterexample :
    (run 2 10 (initSt "abcd".data)).2 = false ∧
    reconstruct (run 2 10 (initSt "abcd".data)).1 = "ab".data ∧
    "ab".data ≠ "abcd".data ∧
    step 2 ⟨[], "ab".data⟩ = some ("ab".data, ⟨[], "ab".data⟩) := by decide

/-- Claim C1 (amended): for every positive `chunk_size` and every input file
on which the chunk loop terminates, the concatenation of all emitted
undecorated chunks, with each chunk's leading carry-over removed (except the
first chunk), equals the original file content exactly. -/
theorem reconstruct_of_terminating (file : List Char) (chunkSize fuel : Nat)
    (hcs : 0 < chunkSize)
    (hterm : (run chunkSize fuel (initSt file)).2 = true) :
    reconstruct (run chunkSize fuel (initSt file)).1 = file := by
  have h := run_reconstruct hcs fuel (initSt file) hterm
  simpa [initSt, reconstruct] using h

/-- Witness for the amended C1 on the file `"a\nb\n"`, `chunk_size = 3`. -/
theorem reconstruct_of_terminating_witness :
    (0 : Nat) < 3 ∧ (run 3 3 (initSt "a\nb\n".data)).2 = true ∧
    reconstruct (run 3 3 (initSt "a\nb\n".data)).1 = "a\nb\n".data :=
  ⟨by decide, by decide,
    reconstruct_of_terminating "a\nb\n".data 3 3 (by decide) (by decide)⟩

/-- Claim C2: for every positive `chunk_size` and non-empty file not ending
in a newline, the loop never terminates (the break is never reached, at any
fuel), and once the source is exhausted a non-empty newline-free carry is
handed to the sink again by every later iteration (`step` re-emits it and
leaves the state unchanged). -/
theorem nonterminating_of_no_trailing_newline (file : List Char)
    (chunkSize : Nat) (hcs : 0 < chunkSize) (hne : file ≠ [])
    (hlast : file.getLast? ≠ some '\n') :
    (∀ fuel, (run chunkSize fuel (initSt file)).2 = false) ∧
    (∀ p : List Char, p ≠ [] → '\n' ∉ p →
      step chunkSize ⟨[], p⟩ = some (p, ⟨[], p⟩)) := by
  constructor
  · intro fuel
    apply run_no_break hcs fuel
    · simpa [pending, initSt] using hne
    · simpa [pending, initSt] using hlast
  · intro p hp hnl
    simp [step, hp, afterLastNewline_of_not_mem p hnl]

/-- Witness for C2 on the file `"ab"` with `chunk_size = 1`. -/
theorem nonterminating_of_no_trailing_newline_witness :
    (run 1 5 (initSt "ab".data)).2 = false ∧
    step 1 ⟨[], "x".data⟩ = some ("x".data, ⟨[], "x".data⟩) := by
  have h := nonterminating_of_no_trailing_newline "ab".data 1 (by decide)
    (by decide) (by decide)
  exact ⟨h.1 5, h.2 "x".data (by decide) (by decide)⟩

/-- Claim C3: for every input file and every positive `chunk_size`, every
chunk handed to the sink has undecorated length at most `chunk_size`, on
every iteration (the carry-only iterations included). -/
theorem chunk_length_le_chunkSize (file : List Char) (chunkSize fuel : Nat)
    (_hcs : 0 < chunkSize) :
    ∀ c ∈ (run chunkSize fuel (initSt file)).1, c.length ≤ chunkSize := by
  apply run_chunk_length
  simp [initSt]

/-- Witness for C3: on file `"a\nbb"` with `chunk_size = 2` the chunk
`"a\n"` is emitted and has length at most 2. -/
theorem chunk_length_le_chunkSize_witness : ("a\n".data).length ≤ 2 :=
  chunk_length_le_chunkSize "a\nbb".data 2 5 (by decide) "a\n".data (by decide)

/-- Claim C4: on the file `"a\nb\nc\n"` with `chunk_size = 4` exactly the two
undecorated chunks `"a\nb\n"` and `"c\n"` are emitted, in that order, the
carry is empty after each hand-off, and the loop then terminates. -/
theorem scenario_two_chunks :
    run 4 3 (initSt "a\nb\nc\n".data) = (["a\nb\n".data, "c\n".data], true) ∧
    step 4 (initSt "a\nb\nc\n".data) =
      some ("a\nb\n".data, ⟨"c\n".data, []⟩) ∧
    step 4 ⟨"c\n".data, []⟩ = some ("c\n".data, ⟨[], []⟩) ∧
    step 4 ⟨[], []⟩ = none := by decide

/-- Claim C5: after every hand-off, the new carry is the substring of the
emitted raw chunk strictly after the last newline in that chunk: it is
newline-free, and either the chunk has no newline and the carry is the whole
chunk, or the chunk splits as `u ++ '\n' :: carry`. -/
theorem carry_eq_after_last_newline (chunkSize : Nat) (s : St)
    (c : List Char) (s' : St) (h : step chunkSize s = some (c, s')) :
    '\n' ∉ s'.prepend ∧
    (('\n' ∉ c ∧ s'.prepend = c) ∨ ∃ u, c = u ++ '\n' :: s'.prepend) := by
  obtain ⟨hc, hcne, hs'⟩ := step_elim h
  have hsp : s'.prepend = afterLastNewline c := by rw [hs']
  constructor
  · rw [hsp]
    exact newline_not_mem_afterLastNewline c
  · by_cases hm : '\n' ∈ c
    · right
      rw [hsp]
      exact exists_append_newline c hm
    · left
      exact ⟨hm, by rw [hsp, afterLastNewline_of_not_mem c hm]⟩

/-- Witness for C5 on the step emitting `"ab\n"` from file `"ab\ncd"` with
`chunk_size = 3`. -/
theorem carry_eq_after_last_newline_witness :
    '\n' ∉ (St.mk "cd".data []).prepend ∧
    (('\n' ∉ "ab\n".data ∧ (St.mk "cd".data []).prepend = "ab\n".data) ∨
      ∃ u, "ab\n".data = u ++ '\n' :: (St.mk "cd".data []).prepend) :=
  carry_eq_after_last_newline 3 (initSt "ab\ncd".data) "ab\n".data
    ⟨"cd".data, []⟩ (by decide)

/-- Claim C6: on a file with no newline and length greater than
`chunk_size` (positive), the first iteration's carry is the entire first raw
chunk, the reached state is a fixed point of `step` that requests zero new
characters and re-emits that same chunk, and the loop never terminates. -/
theorem no_newline_long_file_stalls (file : List Char) (chunkSize : Nat)
    (hcs : 0 < chunkSize) (hnl : '\n' ∉ file)
    (hlen : chunkSize < file.length) :
    step chunkSize (initSt file) =
      some (file.take chunkSize,
        ⟨file.drop chunkSize, file.take chunkSize⟩) ∧
    step chunkSize ⟨file.drop chunkSize, file.take chunkSize⟩ =
      some (file.take chunkSize,
        ⟨file.drop chunkSize, file.take chunkSize⟩) ∧
    chunkSize - (file.take chunkSize).length = 0 ∧
    ∀ fuel, (run chunkSize fuel (initSt file)).2 = false := by
  have htl : (file.take chunkSize).length = chunkSize := by
    rw [List.length_take]
    exact Nat.min_eq_left (Nat.le_of_lt hlen)
  have htne : file.take chunkSize ≠ [] := by
    intro h0
    rw [h0] at htl
    simp at htl
    omega
  have htnl : '\n' ∉ file.take chunkSize :=
    fun hm => hnl (List.take_subset _ _ hm)
  have hA : afterLastNewline (file.take chunkSize) = file.take chunkSize :=
    afterLastNewline_of_not_mem _ htnl
  have h0 : chunkSize - (file.take chunkSize).length = 0 := by
    rw [htl]
    exact Nat.sub_self _
  have hfne : file ≠ [] := by
    intro hf
    rw [hf] at hlen
    simp at hlen
  refine ⟨?_, ?_, h0, ?_⟩
  · simp [step, initSt, htne, hA]
  · simp only [step]
    rw [h0]
    simp [htne, hA]
  · intro fuel
    apply run_no_break hcs fuel
    · simpa [pending, initSt] using hfne
    · intro hl
      exact hnl (by simpa [pending, initSt] using
        List.mem_of_getLast?_eq_some (by simpa [pending, initSt] using hl))

/-- Witness for C6 on the file `"abcd"` with `chunk_size = 2`. -/
theorem no_newline_long_file_stalls_witness :
    step 2 (initSt "abcd".data) =
      some ("abcd".data.take 2,
        ⟨"abcd".data.drop 2, "abcd".data.take 2⟩) ∧
    (run 2 7 (initSt "abcd".data)).2 = false := by
  have h := no_newline_long_file_stalls "abcd".data 2 (by decide) (by decide)
    (by decide)
  exact ⟨h.1, h.2.2.2 7⟩

/-- Claim C7: on an empty input file the loop terminates at once, emits zero
chunks, and the clipboard sink is never invoked. -/
theorem empty_file_no_chunks (chunkSize fuel : Nat) (hfuel : 0 < fuel) :
    run chunkSize fuel (initSt []) = ([], true) ∧
    sinkOutputs chunkSize fuel [] = [] := by
  cases fuel with
  | zero => omega
  | succ n =>
    have hstep : step chunkSize (initSt []) = none := by
      simp [step, initSt]
    constructor
    · simp [run, hstep]
    · simp [sinkOutputs, run, hstep]

/-- Witness for C7 with `chunk_size = 5` and fuel 1. -/
theorem empty_file_no_chunks_witness :
    run 5 1 (initSt []) = ([], true) ∧ sinkOutputs 5 1 [] = [] :=
  empty_file_no_chunks 5 1 (by decide)

/-- Claim C8: every string handed to the sink is a raw chunk wrapped with the
fixed decoration, and with the default `chunk_size = 2000 - 11` the decorated
string's length never exceeds the 2000-character message limit. -/
theorem sink_decorated_and_bounded (file : List Char) (fuel : Nat)
    (d : List Char) (hd : d ∈ sinkOutputs defaultChunkSize fuel file) :
    (∃ c, d = decorate c ∧ c.length ≤ defaultChunkSize) ∧
    d.length ≤ 2000 := by
  obtain ⟨c, hc, hdc⟩ := List.mem_map.mp hd
  have hlen : c.length ≤ defaultChunkSize := by
    apply run_chunk_length fuel (initSt file) _ c hc
    simp [initSt]
  refine ⟨⟨c, hdc.symm, hlen⟩, ?_⟩
  rw [← hdc]
  simp only [decorate, List.length_append]
  have h8 : ("```ansi ".data).length = 8 := by decide
  have h3 : ("```".data).length = 3 := by decide
  rw [h8, h3]
  simp only [defaultChunkSize] at hlen
  omega

/-- Witness for C8 on the file `"hi\n"`. -/
theorem sink_decorated_and_bounded_witness :
    (∃ c, decorate "hi\n".data = decorate c ∧
      c.length ≤ defaultChunkSize) ∧
    (decorate "hi\n".data).length ≤ 2000 :=
  sink_decorated_and_bounded "hi\n".data 1 (decorate "hi\n".data) (by decide)

/-- Claim C9: in the event trace, every clipboard copy is immediately
followed by the fixed 3-second sleep, so between any two consecutive
hand-offs at least the configured delay elapses. -/
theorem sleep_after_every_copy (file : List Char)
    (chunk_size fuel i : Nat) (d : List Char)
    (h : (split_chinked_lines file chunk_size fuel)[i]? =
      some (Event.copy d)) :
    (split_chinked_lines file chunk_size fuel)[i + 1]? =
      some (Event.sleep 3) :=
  events_sleep_after_copy fuel (initSt file) i d h

/-- Witness for C9 on the file `"a\n"` with `chunk_size = 4`. -/
theorem sleep_after_every_copy_witness :
    (split_chinked_lines "a\n".data 4 3)[0 + 1]? =
      some (Event.sleep 3) :=
  sleep_after_every_copy "a\n".data 4 3 0 (decorate "a\n".data) (by decide)

/-- Claim C10: the carry never contains a newline: it is empty in the initial
state, and the carry computed by any loop iteration is newline-free. -/
theorem carry_newline_free :
    (∀ file : List Char, (initSt file).prepend = []) ∧
    (∀ (chunkSize : Nat) (s : St) (c : List Char) (s' : St),
      step chunkSize s = some (c, s') → '\n' ∉ s'.prepend) := by
  constructor
  · intro file
    rfl
  · intro cs s c s' h
    obtain ⟨_, _, hs'⟩ := step_elim h
    rw [hs']
    exact newline_not_mem_afterLastNewline c

/-- Witness for C10 at the step emitting `"ab"` from file `"ab"` with
`chunk_size = 2`. -/
theorem carry_newline_free_witness :
    (initSt "ab".data).prepend = [] ∧ '\n' ∉ (St.mk [] "ab".data).prepend :=
  ⟨carry_newline_free.1 "ab".data,
   carry_newline_free.2 2 (initSt "ab".data) "ab".data ⟨[], "ab".data⟩
     (by decide)⟩
